import Mathlib

/-!
Verification of the dependency-graph core of the repository
(`src/graph.py`, with the test fetcher from `src/fetcher.py` and the
`max_depth` validation fragment of `src/config.py`).

Package names are opaque strings.  The mutable instance state of the
Python class `DependencyGraph` (`self.graph`, `self.visited`,
`self.recursion_stack`) is modelled as an explicit `BuildState` threaded
through the traversal; the dictionary `self.graph` is an
insertion-ordered association list.  A fetcher is a function
`Pkg → Option (List Pkg)` where `none` models the fetcher raising an
exception.  The ghost field `fetchLog` records, in order, every package
for which the fetcher was invoked during one build; it corresponds to no
Python data structure and is used only to state claims about fetch
counts.  Recursion in Python is unbounded, so the Lean embedding takes a
fuel argument; `none` as overall result means the fuel ran out (the
Python program would still be recursing).
-/

abbrev Pkg := String

/-- Model of the Python substring test `needle in hay` on lists of
characters: `startsList n h` is `n` being an initial segment of `h`. -/
def startsList : List Char → List Char → Bool
  | [], _ => true
  | _ :: _, [] => false
  | a :: as, b :: bs => a = b && startsList as bs

/-- Model of Python `needle in hay` (contiguous substring test). -/
def subOf (needle : List Char) (hay : List Char) : Bool :=
  match hay with
  | [] => needle.isEmpty
  | _ :: t => startsList needle hay || subOf needle t

/-- A dependency name is kept by the filter of `_bfs_with_recursion`
(lines 82-86 of `graph.py`) unless `filter_substring` is non-empty and
occurs in the name: `if filter_substring and filter_substring in dep: continue`. -/
def keepDep (filter_substring : String) (dep : Pkg) : Bool :=
  if filter_substring = "" then true
  else ! subOf filter_substring.toList dep.toList

/-- The filtered dependency list built by the loop at lines 81-86 of
`graph.py`: kept names in their original order. -/
def filterDeps (filter_substring : String) (deps : List Pkg) : List Pkg :=
  deps.filter (keepDep filter_substring)

/-- Lookup in an insertion-ordered association list (model of Python
dict indexing / `.get`). -/
def lookupA {β : Type} : List (Pkg × β) → Pkg → Option β
  | [], _ => none
  | (k, v) :: rest, p => if k = p then some v else lookupA rest p

/-- The mutable state of a `DependencyGraph` instance during a build:
`graph`, `visited` and `recursion_stack` from `graph.py` lines 10-13,
plus the ghost `fetchLog` of fetcher invocations. -/
structure BuildState where
  graph : List (Pkg × List Pkg)
  visited : List Pkg
  stack : List Pkg
  fetchLog : List Pkg
deriving DecidableEq, Repr

/-- A fetcher: `none` models `get_test_dependencies` /
`get_direct_dependencies` raising an exception. -/
def Fetcher : Type := Pkg → Option (List Pkg)

mutual

/-- Model of `DependencyGraph._bfs_with_recursion` (`graph.py` lines
43-98).  The checks happen in source order: depth limit, recursion
stack, visited set; then the package is marked visited and pushed, the
fetcher is called (logged in `fetchLog`), on success the filtered
dependency list is recorded in the graph and the dependencies are
visited in order; `finally` pops the package from the recursion stack.
Fuel decreases on every recursive call; exhaustion yields `none`. -/
def bfs_with_recursion (fetcher : Fetcher) (max_depth : Int) (filter_substring : String) :
    Nat → Pkg → Int → BuildState → Option BuildState
  | 0, _, _, _ => none
  | fuel + 1, package, current_depth, st =>
    if max_depth ≠ -1 ∧ current_depth > max_depth then some st
    else if package ∈ st.stack then some st
    else if package ∈ st.visited then some st
    else
      let st1 : BuildState :=
        { st with visited := package :: st.visited,
                  stack := package :: st.stack,
                  fetchLog := st.fetchLog ++ [package] }
      match fetcher package with
      | none => some { st1 with stack := st1.stack.erase package }
      | some dependencies =>
        let fd := filterDeps filter_substring dependencies
        let st2 : BuildState := { st1 with graph := st1.graph ++ [(package, fd)] }
        match bfs_deps_loop fetcher max_depth filter_substring fuel fd (current_depth + 1) st2 with
        | none => none
        | some st3 => some { st3 with stack := st3.stack.erase package }

/-- The loop `for dep in filtered_dependencies: self._bfs_with_recursion(...)`
(`graph.py` lines 92-93): visit each dependency in order at depth+1. -/
def bfs_deps_loop (fetcher : Fetcher) (max_depth : Int) (filter_substring : String) :
    Nat → List Pkg → Int → BuildState → Option BuildState
  | _, [], _, st => some st
  | 0, _ :: _, _, _ => none
  | fuel + 1, d :: ds, depth, st =>
    match bfs_with_recursion fetcher max_depth filter_substring fuel d depth st with
    | none => none
    | some st' => bfs_deps_loop fetcher max_depth filter_substring fuel ds depth st'

end

/-- A freshly constructed `DependencyGraph` instance (`__init__`,
`graph.py` lines 10-13): all three structures empty. -/
def initDependencyGraph : BuildState :=
  { graph := [], visited := [], stack := [], fetchLog := [] }

/-- Model of `DependencyGraph.build_dependency_graph` (`graph.py` lines
15-41) run on an instance whose current state is `st`: it resets
`self.graph` to `{}` and clears `self.visited`, but does NOT touch
`self.recursion_stack`, then starts the traversal at depth 0.  The
ghost `fetchLog` is restarted so that it records this build's calls. -/
def build_dependency_graph (fetcher : Fetcher) (st : BuildState) (package_name : Pkg)
    (max_depth : Int) (filter_substring : String) (fuel : Nat) : Option BuildState :=
  bfs_with_recursion fetcher max_depth filter_substring fuel package_name 0
    { graph := [], visited := [], stack := st.stack, fetchLog := [] }

/-- A build on a fresh `DependencyGraph()` instance, the way `cli.py`
uses the class. -/
def buildNew (fetcher : Fetcher) (package_name : Pkg) (max_depth : Int)
    (filter_substring : String) (fuel : Nat) : Option BuildState :=
  build_dependency_graph fetcher initDependencyGraph package_name max_depth filter_substring fuel

/-- The canned table of `TestDataFetcher.get_test_dependencies`
(`fetcher.py` lines 198-204). -/
def test_dependencies : List (Pkg × List Pkg) :=
  [("A", ["B", "C", "D"]),
   ("B", ["D", "E"]),
   ("C", ["B", "F"]),
   ("serde", ["serde_derive", "proc-macro2", "quote", "syn"]),
   ("tokio", ["bytes", "mio", "num_cpus", "pin-project-lite"])]

/-- Model of `TestDataFetcher.get_test_dependencies` (`fetcher.py` lines
186-207): the canned entry, or the generic fallback list for unknown
names.  Never raises. -/
def get_test_dependencies (package_name : Pkg) : List Pkg :=
  (lookupA test_dependencies package_name).getD ["test_dep1", "test_dep2", "test_dep3"]

/-- The test fetcher as a `Fetcher` (always succeeds). -/
def testFetcher : Fetcher := fun p => some (get_test_dependencies p)

/-- The `max_depth` check of `Config._validate_config` (`config.py`
lines 88-90): values below -1 are rejected with a `ValueError`. -/
def validate_max_depth (max_depth : Int) : Except String Unit :=
  if max_depth < -1 then
    Except.error "max_depth должен быть -1 (без ограничений) или положительным числом"
  else Except.ok ()

/-- The state of `detect_cycles` (`graph.py` lines 100-137): its own
`visited` and `recursion_stack` sets and the accumulated list of cycles. -/
structure CycState where
  visited : List Pkg
  rstack : List Pkg
  cycles : List (List Pkg)
deriving DecidableEq, Repr

/-- Python `self.graph.get(node, [])` (`graph.py` line 127). -/
def nbrs (graph : List (Pkg × List Pkg)) (node : Pkg) : List Pkg :=
  (lookupA graph node).getD []

mutual

/-- Model of the inner `dfs(node, path)` of `detect_cycles` (`graph.py`
lines 111-131).  `path` is passed functionally: every Python child call
receives `path.copy()` after the parent appended itself, so a child call
`dfs(neighbor, path)` is modelled by recursing with `path ++ [node]`.
On revisiting a node on the recursion stack, the suffix of `path` from
the first occurrence of `node` is appended to `cycles` unless already
present verbatim (`if cycle not in cycles`).  `path.index(node)` raises
`ValueError` when `node ∉ path`; that (unreachable) exception is
modelled as `none`, like fuel exhaustion. -/
def dfs (graph : List (Pkg × List Pkg)) :
    Nat → Pkg → List Pkg → CycState → Option CycState
  | 0, _, _, _ => none
  | fuel + 1, node, path, cst =>
    if node ∈ cst.rstack then
      if node ∈ path then
        let cycle := path.drop (path.indexOf node)
        some { cst with cycles := if cycle ∈ cst.cycles then cst.cycles else cst.cycles ++ [cycle] }
      else none
    else if node ∈ cst.visited then some cst
    else
      let cst1 : CycState := { cst with visited := node :: cst.visited, rstack := node :: cst.rstack }
      match dfs_nbrs_loop graph fuel (nbrs graph node) (path ++ [node]) cst1 with
      | none => none
      | some cst2 => some { cst2 with rstack := cst2.rstack.erase node }

/-- The loop `for neighbor in self.graph.get(node, []): dfs(neighbor, path.copy())`
(`graph.py` lines 127-128).  The parent has already appended itself, so
`path` here is the path each child receives.  Fuel decreases on every
call, as in the builder. -/
def dfs_nbrs_loop (graph : List (Pkg × List Pkg)) :
    Nat → List Pkg → List Pkg → CycState → Option CycState
  | _, [], _, cst => some cst
  | 0, _ :: _, _, _ => none
  | fuel + 1, n :: ns, path, cst =>
    match dfs graph fuel n path cst with
    | none => none
    | some cst' => dfs_nbrs_loop graph fuel ns path cst'

end

/-- The outer loop of `detect_cycles` (`graph.py` lines 133-135):
`for node in self.graph: if node not in visited: dfs(node, [])` over the
graph's keys in insertion order. -/
def dfs_all (graph : List (Pkg × List Pkg)) :
    Nat → List Pkg → CycState → Option CycState
  | _, [], cst => some cst
  | 0, _ :: _, _ => none
  | fuel + 1, k :: ks, cst =>
    if k ∈ cst.visited then dfs_all graph fuel ks cst
    else
      match dfs graph fuel k [] cst with
      | none => none
      | some cst' => dfs_all graph fuel ks cst'

/-- Model of `DependencyGraph.detect_cycles` (`graph.py` lines 100-137):
fresh visited/recursion-stack state, DFS from every unvisited key, and
the accumulated cycle list as result. -/
def detect_cycles (graph : List (Pkg × List Pkg)) (fuel : Nat) : Option (List (List Pkg)) :=
  (dfs_all graph fuel (graph.map Prod.fst) { visited := [], rstack := [], cycles := [] }).map
    (fun cst => cst.cycles)

/-- The fixed demonstration graph of `TestGraphBuilder.build_test_graph`
(`graph.py` lines 182-202), in dict insertion order. -/
def build_test_graph : List (Pkg × List Pkg) :=
  [("A", ["B", "C"]),
   ("B", ["D", "E"]),
   ("C", ["B", "F"]),
   ("D", ["G"]),
   ("E", ["D", "H"]),
   ("F", ["E", "I"]),
   ("G", ["B"]),
   ("H", []),
   ("I", ["F"])]

/-! ## Invariants of the builder traversal -/

/-- A graph entry records the filtered fetch result of its key. -/
def entryOK (fetcher : Fetcher) (filter_substring : String) (e : Pkg × List Pkg) : Prop :=
  ∃ deps, fetcher e.1 = some deps ∧ e.2 = filterDeps filter_substring deps

/-- How one traversal step extends the builder state: the recursion
stack is restored exactly, the graph only grows, every new entry records
a filtered fetch result, the fetch log grows by a duplicate-free block
of previously unvisited packages which are exactly the packages newly
consed onto `visited`, and every newly logged package whose fetch
succeeds appears as a graph key. -/
def Extends (fetcher : Fetcher) (filter_substring : String) (st st' : BuildState) : Prop :=
  st'.stack = st.stack ∧
  (∃ gnew, st'.graph = st.graph ++ gnew ∧ ∀ e ∈ gnew, entryOK fetcher filter_substring e) ∧
  (∃ lnew, st'.fetchLog = st.fetchLog ++ lnew ∧
    st'.visited = lnew.reverse ++ st.visited ∧
    lnew.Nodup ∧
    (∀ q ∈ lnew, q ∉ st.visited) ∧
    (∀ q ∈ lnew, ∀ deps, fetcher q = some deps → q ∈ st'.graph.map Prod.fst))

/-- A builder state is dependency-closed off the recursion stack: every
visited package not currently on the stack has all its kept dependencies
visited.  This is the invariant that makes the final graph complete. -/
def FClosed (fetcher : Fetcher) (filter_substring : String) (st : BuildState) : Prop :=
  ∀ p, p ∈ st.visited → p ∉ st.stack → ∀ deps, fetcher p = some deps →
    ∀ q ∈ filterDeps filter_substring deps, q ∈ st.visited

/-- Reachability from the root along kept (unfiltered) dependency edges
of successfully fetched packages. -/
inductive Reach (fetcher : Fetcher) (filter_substring : String) (root : Pkg) : Pkg → Prop
  | refl : Reach fetcher filter_substring root root
  | step (p q : Pkg) (deps : List Pkg) :
      Reach fetcher filter_substring root p → fetcher p = some deps →
      q ∈ filterDeps filter_substring deps → Reach fetcher filter_substring root q

/-- A kept dependency edge: `q` survives the filter among `p`'s fetched
dependencies. -/
def DepEdge (fetcher : Fetcher) (filter_substring : String) (p q : Pkg) : Prop :=
  ∃ deps, fetcher p = some deps ∧ q ∈ filterDeps filter_substring deps

/-- The fetcher describes an acyclic dependency relation: some rank
function strictly decreases along every kept dependency edge. -/
def AcyclicDeps (fetcher : Fetcher) (filter_substring : String) : Prop :=
  ∃ rank : Pkg → Nat, ∀ p q, DepEdge fetcher filter_substring p q → rank q < rank p

/-- A nonempty node sequence is a cycle of `graph`: consecutive members
are edges and the last member has an edge back to the first. -/
def IsCycleOf (graph : List (Pkg × List Pkg)) : List Pkg → Prop
  | [] => False
  | a :: rest => List.Chain (fun x y => y ∈ nbrs graph x) a (rest ++ [a])

/-- An accumulated cycle list is sound for `graph`: every member is a
genuine cycle, and no two members are equal as sequences. -/
def CycInv (graph : List (Pkg × List Pkg)) (cycles : List (List Pkg)) : Prop :=
  (∀ c ∈ cycles, IsCycleOf graph c) ∧ cycles.Nodup

/-- A small deterministic fetcher with the acyclic dependency relation
A → B (and a failing fetch everywhere outside its universe), used to
instantiate the general theorems on concrete input. -/
def chainFetcher : Fetcher := fun p =>
  if p = "A" then some ["B"] else if p = "B" then some [] else none

/-- A fetcher whose fetch of "B" fails while "A" and "C" succeed, used
to exercise the fault-isolation path on concrete input. -/
def failBFetcher : Fetcher := fun p =>
  if p = "A" then some ["B", "C"] else if p = "B" then none else some []

/-- A fetcher giving the root "A" the direct dependencies [B, C], used
to exercise the depth bound on concrete input. -/
def rootABFetcher : Fetcher := fun p =>
  if p = "A" then some ["B", "C"] else some []

theorem extends_refl (fetcher : Fetcher) (filter_substring : String) (st : BuildState) :
    Extends fetcher filter_substring st st := by
  refine ⟨rfl, ⟨[], by simp, by simp⟩, ⟨[], by simp, by simp, by simp, by simp, by simp⟩⟩

theorem extends_trans {fetcher : Fetcher} {filter_substring : String} {st₁ st₂ st₃ : BuildState}
    (h₁ : Extends fetcher filter_substring st₁ st₂)
    (h₂ : Extends fetcher filter_substring st₂ st₃) :
    Extends fetcher filter_substring st₁ st₃ := by
  obtain ⟨hs₁, ⟨g₁, hg₁, hgok₁⟩, ⟨l₁, hl₁, hv₁, hnd₁, hnv₁, hk₁⟩⟩ := h₁
  obtain ⟨hs₂, ⟨g₂, hg₂, hgok₂⟩, ⟨l₂, hl₂, hv₂, hnd₂, hnv₂, hk₂⟩⟩ := h₂
  refine ⟨hs₂.trans hs₁, ⟨g₁ ++ g₂, ?_, ?_⟩, ⟨l₁ ++ l₂, ?_, ?_, ?_, ?_, ?_⟩⟩
  · rw [hg₂, hg₁, List.append_assoc]
  · intro e he
    rcases List.mem_append.1 he with h | h
    · exact hgok₁ e h
    · exact hgok₂ e h
  · rw [hl₂, hl₁, List.append_assoc]
  · rw [hv₂, hv₁, List.reverse_append, List.append_assoc]
  · refine List.Nodup.append hnd₁ hnd₂ ?_
    intro q hq₁ hq₂
    exact hnv₂ q hq₂ (by rw [hv₁]; exact List.mem_append_left _ (List.mem_reverse.2 hq₁))
  · intro q hq
    rcases List.mem_append.1 hq with h | h
    · exact hnv₁ q h
    · intro hq₁
      exact hnv₂ q h (by rw [hv₁]; exact List.mem_append_right _ hq₁)
  · intro q hq deps hdeps
    rcases List.mem_append.1 hq with h | h
    · have := hk₁ q h deps hdeps
      rw [hg₂, List.map_append]
      exact List.mem_append_left _ this
    · exact hk₂ q h deps hdeps

/-- Master invariant of `_bfs_with_recursion`: whenever a call (or the
dependency loop) returns, the resulting state `Extends` the input state. -/
theorem bfs_extends (fetcher : Fetcher) (max_depth : Int) (filter_substring : String) :
    ∀ fuel : Nat,
      (∀ p d st st',
        bfs_with_recursion fetcher max_depth filter_substring fuel p d st = some st' →
        Extends fetcher filter_substring st st') ∧
      (∀ ds d st st',
        bfs_deps_loop fetcher max_depth filter_substring fuel ds d st = some st' →
        Extends fetcher filter_substring st st') := by
  intro fuel
  induction fuel with
  | zero =>
    constructor
    · intro p d st st' h
      simp [bfs_with_recursion] at h
    · intro ds d st st' h
      cases ds with
      | nil =>
        simp only [bfs_deps_loop, Option.some.injEq] at h
        subst h
        exact extends_refl ..
      | cons x xs => simp [bfs_deps_loop] at h
  | succ fuel ih =>
    obtain ⟨ihN, ihL⟩ := ih
    constructor
    · intro p d st st' h
      simp only [bfs_with_recursion] at h
      split at h
      · cases h; exact extends_refl ..
      · split at h
        · cases h; exact extends_refl ..
        · split at h
          · cases h; exact extends_refl ..
          · rename_i hdep hstk hvis
            split at h
            · -- fetch failure
              rename_i hf
              cases h
              refine ⟨?_, ⟨[], by simp, by simp⟩,
                ⟨[p], by simp, by simp, by simp, by simpa using hvis, ?_⟩⟩
              · simp [List.erase_cons_head]
              · intro q hq deps hdeps
                simp only [List.mem_singleton] at hq
                subst hq
                rw [hf] at hdeps
                cases hdeps
            · -- fetch success
              rename_i deps hf
              split at h
              · cases h
              · rename_i st₃ hloop
                cases h
                have hE := ihL _ _ _ _ hloop
                obtain ⟨hs, ⟨g₂, hg, hgok⟩, ⟨l₂, hl, hv, hnd, hnv, hk⟩⟩ := hE
                simp only at hs hg hl hv hnd hnv hk
                refine ⟨?_, ⟨(p, filterDeps filter_substring deps) :: g₂, ?_, ?_⟩,
                  ⟨p :: l₂, ?_, ?_, ?_, ?_, ?_⟩⟩
                · simp only [hs, List.erase_cons_head]
                · simp only [hg, List.append_assoc, List.singleton_append]
                · intro e he
                  rcases List.mem_cons.1 he with he | he
                  · subst he
                    exact ⟨deps, hf, rfl⟩
                  · exact hgok e he
                · simp only [hl, List.append_assoc, List.singleton_append]
                · simp only [hv, List.reverse_cons, List.append_assoc, List.singleton_append]
                · refine List.nodup_cons.2 ⟨?_, hnd⟩
                  intro hp
                  exact hnv p hp (by simp)
                · intro q hq
                  rcases List.mem_cons.1 hq with hq | hq
                  · subst hq
                    exact hvis
                  · intro hqv
                    exact hnv q hq (by simp [hqv])
                · intro q hq deps' hdeps'
                  rcases List.mem_cons.1 hq with hq | hq
                  · subst hq
                    simp only [hg, List.map_append]
                    refine List.mem_append_left _ ?_
                    simp
                  · exact hk q hq deps' hdeps'
    · intro ds d st st' h
      cases ds with
      | nil =>
        simp only [bfs_deps_loop, Option.some.injEq] at h
        subst h
        exact extends_refl ..
      | cons x xs =>
        simp only [bfs_deps_loop] at h
        split at h
        · cases h
        · rename_i stm hnode
          exact extends_trans (ihN _ _ _ _ hnode) (ihL _ _ _ _ h)

theorem extends_visited_mono {fetcher : Fetcher} {filter_substring : String}
    {st st' : BuildState} (h : Extends fetcher filter_substring st st') :
    ∀ q ∈ st.visited, q ∈ st'.visited := by
  obtain ⟨-, -, ⟨l, -, hv, -, -, -⟩⟩ := h
  intro q hq
  rw [hv]
  exact List.mem_append_right _ hq

/-! ## Completeness of the traversal (unlimited depth) -/

/-- With unlimited depth, a returning call preserves closedness and
guarantees its own package (each listed package, for the loop) is
visited afterwards. -/
theorem bfs_closed (fetcher : Fetcher) (filter_substring : String) :
    ∀ fuel : Nat,
      (∀ p d st st',
        bfs_with_recursion fetcher (-1) filter_substring fuel p d st = some st' →
        st.stack ⊆ st.visited → FClosed fetcher filter_substring st →
        st'.stack ⊆ st'.visited ∧ FClosed fetcher filter_substring st' ∧ p ∈ st'.visited) ∧
      (∀ ds d st st',
        bfs_deps_loop fetcher (-1) filter_substring fuel ds d st = some st' →
        st.stack ⊆ st.visited → FClosed fetcher filter_substring st →
        st'.stack ⊆ st'.visited ∧ FClosed fetcher filter_substring st' ∧
          ∀ q ∈ ds, q ∈ st'.visited) := by
  intro fuel
  induction fuel with
  | zero =>
    constructor
    · intro p d st st' h
      simp [bfs_with_recursion] at h
    · intro ds d st st' h hsv hcl
      cases ds with
      | nil =>
        simp only [bfs_deps_loop, Option.some.injEq] at h
        subst h
        exact ⟨hsv, hcl, by simp⟩
      | cons x xs => simp [bfs_deps_loop] at h
  | succ fuel ih =>
    obtain ⟨ihN, ihL⟩ := ih
    constructor
    · intro p d st st' h hsv hcl
      simp only [bfs_with_recursion] at h
      split at h
      · rename_i hc
        exact absurd rfl hc.1
      · split at h
        · rename_i hstk
          cases h
          exact ⟨hsv, hcl, hsv hstk⟩
        · split at h
          · rename_i hvis
            cases h
            exact ⟨hsv, hcl, hvis⟩
          · rename_i hstk hvis
            split at h
            · -- fetch failure
              rename_i hf
              cases h
              simp only [List.erase_cons_head]
              refine ⟨fun q hq => List.mem_cons_of_mem _ (hsv hq), ?_, List.mem_cons_self _ _⟩
              intro q hqv hqs deps hdeps
              rcases List.mem_cons.1 hqv with hq | hq
              · subst hq
                rw [hf] at hdeps
                cases hdeps
              · intro r hr
                exact List.mem_cons_of_mem _ (hcl q hq hqs deps hdeps r hr)
            · -- fetch success
              rename_i deps hf
              split at h
              · cases h
              · rename_i st₃ hloop
                cases h
                have hsv₂ : (p :: st.stack) ⊆ (p :: st.visited) := by
                  intro q hq
                  rcases List.mem_cons.1 hq with hq | hq
                  · simp [hq]
                  · exact List.mem_cons_of_mem _ (hsv hq)
                have hcl₂ : ∀ q, q ∈ (p :: st.visited) → q ∉ (p :: st.stack) →
                    ∀ deps', fetcher q = some deps' →
                    ∀ r ∈ filterDeps filter_substring deps', r ∈ (p :: st.visited) := by
                  intro q hqv hqs deps' hdeps' r hr
                  have hqp : q ≠ p := fun he => hqs (he ▸ List.mem_cons_self _ _)
                  have hqv' : q ∈ st.visited := by
                    rcases List.mem_cons.1 hqv with h | h
                    · exact absurd h hqp
                    · exact h
                  have hqs' : q ∉ st.stack := fun hc => hqs (List.mem_cons_of_mem _ hc)
                  exact List.mem_cons_of_mem _ (hcl q hqv' hqs' deps' hdeps' r hr)
                have hIH := ihL _ _ _ _ hloop hsv₂ hcl₂
                obtain ⟨hsv₃, hcl₃, hds⟩ := hIH
                have hE := (bfs_extends fetcher (-1) filter_substring fuel).2 _ _ _ _ hloop
                have hsEq : st₃.stack = p :: st.stack := hE.1
                have hvis₃ : p ∈ st₃.visited :=
                  extends_visited_mono hE p (List.mem_cons_self _ _)
                simp only [hsEq, List.erase_cons_head]
                refine ⟨?_, ?_, hvis₃⟩
                · intro q hq
                  exact hsv₃ (by rw [hsEq]; exact List.mem_cons_of_mem _ hq)
                · intro q hqv hqs deps' hdeps' r hr
                  by_cases hqp : q = p
                  · subst hqp
                    rw [hf] at hdeps'
                    cases hdeps'
                    exact hds r hr
                  · have hqs₃ : q ∉ st₃.stack := by
                      rw [hsEq]
                      intro hc
                      rcases List.mem_cons.1 hc with hc | hc
                      · exact hqp hc
                      · exact hqs hc
                    exact hcl₃ q hqv hqs₃ deps' hdeps' r hr
    · intro ds d st st' h hsv hcl
      cases ds with
      | nil =>
        simp only [bfs_deps_loop, Option.some.injEq] at h
        subst h
        exact ⟨hsv, hcl, by simp⟩
      | cons x xs =>
        simp only [bfs_deps_loop] at h
        split at h
        · cases h
        · rename_i stm hnode
          obtain ⟨hsv₁, hcl₁, hx⟩ := ihN _ _ _ _ hnode hsv hcl
          obtain ⟨hsv₂, hcl₂, hxs⟩ := ihL _ _ _ _ h hsv₁ hcl₁
          refine ⟨hsv₂, hcl₂, ?_⟩
          intro q hq
          rcases List.mem_cons.1 hq with hq | hq
          · subst hq
            have hE := (bfs_extends fetcher (-1) filter_substring fuel).2 _ _ _ _ h
            exact extends_visited_mono hE q hx
          · exact hxs q hq

/-- In a closed state with an empty recursion stack that has visited the
root, every reachable package is visited. -/
theorem reach_visited {fetcher : Fetcher} {filter_substring : String} {st : BuildState}
    (hcl : FClosed fetcher filter_substring st) (hstk : st.stack = [])
    {root : Pkg} (hroot : root ∈ st.visited) :
    ∀ q, Reach fetcher filter_substring root q → q ∈ st.visited := by
  intro q hq
  induction hq with
  | refl => exact hroot
  | step p r deps _ hf hr ih =>
    exact hcl p ih (by simp [hstk]) deps hf r hr

/-- Every package in the fetch log of a returning call was already
logged, is the called package itself, or survived the name filter
(came out of some filtered dependency list). -/
theorem bfs_log_origin (fetcher : Fetcher) (max_depth : Int) (filter_substring : String) :
    ∀ fuel : Nat,
      (∀ p d st st',
        bfs_with_recursion fetcher max_depth filter_substring fuel p d st = some st' →
        ∀ q ∈ st'.fetchLog, q ∈ st.fetchLog ∨ q = p ∨ keepDep filter_substring q = true) ∧
      (∀ ds d st st',
        bfs_deps_loop fetcher max_depth filter_substring fuel ds d st = some st' →
        ∀ q ∈ st'.fetchLog, q ∈ st.fetchLog ∨ q ∈ ds ∨ keepDep filter_substring q = true) := by
  intro fuel
  induction fuel with
  | zero =>
    constructor
    · intro p d st st' h
      simp [bfs_with_recursion] at h
    · intro ds d st st' h
      cases ds with
      | nil =>
        simp only [bfs_deps_loop, Option.some.injEq] at h
        subst h
        intro q hq
        exact Or.inl hq
      | cons x xs => simp [bfs_deps_loop] at h
  | succ fuel ih =>
    obtain ⟨ihN, ihL⟩ := ih
    constructor
    · intro p d st st' h
      simp only [bfs_with_recursion] at h
      split at h
      · cases h; exact fun q hq => Or.inl hq
      · split at h
        · cases h; exact fun q hq => Or.inl hq
        · split at h
          · cases h; exact fun q hq => Or.inl hq
          · split at h
            · cases h
              intro q hq
              rcases List.mem_append.1 hq with hq | hq
              · exact Or.inl hq
              · simp only [List.mem_singleton] at hq
                exact Or.inr (Or.inl hq)
            · rename_i deps hf
              split at h
              · cases h
              · rename_i st₃ hloop
                cases h
                intro q hq
                rcases ihL _ _ _ _ hloop q hq with hq' | hq' | hq'
                · rcases List.mem_append.1 hq' with hq'' | hq''
                  · exact Or.inl hq''
                  · simp only [List.mem_singleton] at hq''
                    exact Or.inr (Or.inl hq'')
                · exact Or.inr (Or.inr (List.of_mem_filter hq'))
                · exact Or.inr (Or.inr hq')
    · intro ds d st st' h
      cases ds with
      | nil =>
        simp only [bfs_deps_loop, Option.some.injEq] at h
        subst h
        exact fun q hq => Or.inl hq
      | cons x xs =>
        simp only [bfs_deps_loop] at h
        split at h
        · cases h
        · rename_i stm hnode
          intro q hq
          rcases ihL _ _ _ _ h q hq with hq' | hq' | hq'
          · rcases ihN _ _ _ _ hnode q hq' with hq'' | hq'' | hq''
            · exact Or.inl hq''
            · exact Or.inr (Or.inl (by simp [hq'']))
            · exact Or.inr (Or.inr hq'')
          · exact Or.inr (Or.inl (List.mem_cons_of_mem _ hq'))
          · exact Or.inr (Or.inr hq')

/-- In a graph all of whose entries record filtered fetch results, the
lookup of any present key ties it to the fetcher's answer for that key. -/
theorem lookupA_of_entryOK {fetcher : Fetcher} {filter_substring : String} :
    ∀ (g : List (Pkg × List Pkg)), (∀ e ∈ g, entryOK fetcher filter_substring e) →
    ∀ p deps, fetcher p = some deps → p ∈ g.map Prod.fst →
    lookupA g p = some (filterDeps filter_substring deps) := by
  intro g
  induction g with
  | nil =>
    intro _ p deps _ hp
    simp at hp
  | cons e rest ih =>
    intro hok p deps hf hp
    obtain ⟨k, v⟩ := e
    simp only [lookupA]
    by_cases hk : k = p
    · subst hk
      obtain ⟨deps', hf', hv⟩ := hok (k, v) (List.mem_cons_self _ _)
      simp only at hf' hv
      rw [hf] at hf'
      cases hf'
      simp [hv]
    · rw [if_neg hk]
      refine ih (fun e he => hok e (List.mem_cons_of_mem _ he)) p deps hf ?_
      simp only [List.map_cons, List.mem_cons] at hp
      rcases hp with hp | hp
      · exact absurd hp.symm hk
      · exact hp

/-- In a graph all of whose entries record successful fetches, a package
whose fetch fails has no entry. -/
theorem lookupA_none_of_entryOK {fetcher : Fetcher} {filter_substring : String} :
    ∀ (g : List (Pkg × List Pkg)), (∀ e ∈ g, entryOK fetcher filter_substring e) →
    ∀ p, fetcher p = none → lookupA g p = none := by
  intro g
  induction g with
  | nil => intro _ p _; simp [lookupA]
  | cons e rest ih =>
    intro hok p hf
    obtain ⟨k, v⟩ := e
    simp only [lookupA]
    by_cases hk : k = p
    · subst hk
      obtain ⟨deps', hf', -⟩ := hok (k, v) (List.mem_cons_self _ _)
      simp only at hf'
      rw [hf] at hf'
      cases hf'
    · rw [if_neg hk]
      exact ih (fun e he => hok e (List.mem_cons_of_mem _ he)) p hf

/-! ## Soundness of the cycle detector -/

/-- Every cycle accumulated by `dfs` is a genuine cycle of the graph,
and the accumulated list stays duplicate-free, provided the current path
extended by the current node is an edge chain. -/
theorem dfs_cycinv (graph : List (Pkg × List Pkg)) :
    ∀ fuel : Nat,
      (∀ node path cst cst',
        dfs graph fuel node path cst = some cst' →
        List.Chain' (fun x y => y ∈ nbrs graph x) (path ++ [node]) →
        CycInv graph cst.cycles → CycInv graph cst'.cycles) ∧
      (∀ ns node path₀ cst cst',
        dfs_nbrs_loop graph fuel ns (path₀ ++ [node]) cst = some cst' →
        List.Chain' (fun x y => y ∈ nbrs graph x) (path₀ ++ [node]) →
        (∀ n ∈ ns, n ∈ nbrs graph node) →
        CycInv graph cst.cycles → CycInv graph cst'.cycles) := by
  intro fuel
  induction fuel with
  | zero =>
    constructor
    · intro node path cst cst' h
      simp [dfs] at h
    · intro ns node path₀ cst cst' h
      cases ns with
      | nil =>
        simp only [dfs_nbrs_loop, Option.some.injEq] at h
        subst h
        exact fun _ _ hI => hI
      | cons x xs => simp [dfs_nbrs_loop] at h
  | succ fuel ih =>
    obtain ⟨ihN, ihL⟩ := ih
    constructor
    · intro node path cst cst' h hchain hI
      simp only [dfs] at h
      split at h
      · -- node on the recursion stack: emit the path suffix
        split at h
        · rename_i hrs hmem
          cases h
          obtain ⟨hIc, hInd⟩ := hI
          have hi : path.indexOf node < path.length := List.indexOf_lt_length.mpr hmem
          have hcyc : IsCycleOf graph (path.drop (path.indexOf node)) := by
            have hdrop : (path ++ [node]).drop (path.indexOf node) =
                path.drop (path.indexOf node) ++ [node] :=
              List.drop_append_of_le_length (le_of_lt hi)
            have hch : List.Chain' (fun x y => y ∈ nbrs graph x)
                (path.drop (path.indexOf node) ++ [node]) := by
              rw [← hdrop]
              exact hchain.suffix (List.drop_suffix _ _)
            have hcons : path.drop (path.indexOf node) =
                node :: path.drop (path.indexOf node + 1) := by
              rw [List.drop_eq_getElem_cons hi]
              congr 1
              exact List.indexOf_get hi
            rw [hcons]
            rw [hcons, List.cons_append] at hch
            exact hch
          constructor
          · intro c hc
            simp only at hc
            split at hc
            · exact hIc c hc
            · rcases List.mem_append.1 hc with hc | hc
              · exact hIc c hc
              · simp only [List.mem_singleton] at hc
                subst hc
                exact hcyc
          · simp only
            split
            · exact hInd
            · rename_i hnm
              simp [List.nodup_append, hInd, hnm]
        · cases h
      · split at h
        · -- already fully visited
          cases h
          exact hI
        · -- expand the node and loop over its neighbours
          split at h
          · cases h
          · rename_i cst₂ hloop
            cases h
            have hIm := ihL _ _ _ _ _ hloop hchain (fun n hn => hn) hI
            exact hIm
    · intro ns node path₀ cst cst' h hchain hns hI
      cases ns with
      | nil =>
        simp only [dfs_nbrs_loop, Option.some.injEq] at h
        subst h
        exact hI
      | cons x xs =>
        simp only [dfs_nbrs_loop] at h
        split at h
        · cases h
        · rename_i cstm hnode
          have hchx : List.Chain' (fun x y => y ∈ nbrs graph x) ((path₀ ++ [node]) ++ [x]) := by
            rw [List.chain'_append]
            refine ⟨hchain, List.chain'_singleton x, ?_⟩
            intro a ha b hb
            simp only [List.getLast?_concat, Option.mem_def, Option.some.injEq] at ha
            simp only [List.head?_cons, Option.mem_def, Option.some.injEq] at hb
            subst ha
            subst hb
            exact hns x (List.mem_cons_self _ _)
          have hIm := ihN _ _ _ _ hnode hchx hI
          exact ihL _ _ _ _ _ h hchain (fun n hn => hns n (List.mem_cons_of_mem _ hn)) hIm

/-- The outer loop of `detect_cycles` preserves cycle-list soundness. -/
theorem dfs_all_cycinv (graph : List (Pkg × List Pkg)) :
    ∀ (fuel : Nat) (ks : List Pkg) (cst cst' : CycState),
      dfs_all graph fuel ks cst = some cst' →
      CycInv graph cst.cycles → CycInv graph cst'.cycles := by
  intro fuel
  induction fuel with
  | zero =>
    intro ks cst cst' h hI
    cases ks with
    | nil =>
      simp only [dfs_all, Option.some.injEq] at h
      subst h
      exact hI
    | cons x xs => simp [dfs_all] at h
  | succ fuel ih =>
    intro ks cst cst' h hI
    cases ks with
    | nil =>
      simp only [dfs_all, Option.some.injEq] at h
      subst h
      exact hI
    | cons k ks =>
      simp only [dfs_all] at h
      split at h
      · exact ih _ _ _ h hI
      · split at h
        · cases h
        · rename_i cstm hnode
          have hIm := (dfs_cycinv graph fuel).1 k [] _ _ hnode (by simp) hI
          exact ih _ _ _ h hIm

/-! ## Claims -/

/-- C2: once a package is in the visited set during a build, it is never
expanded again within the same `build_dependency_graph` call, however
many paths reach it: the fetch log of a completed build is
duplicate-free, so the number of fetcher calls equals the number of
distinct packages expanded. -/
theorem C2_memoized_fetches (fetcher : Fetcher) (st₀ : BuildState) (root : Pkg)
    (max_depth : Int) (filter_substring : String) (fuel : Nat) (st : BuildState)
    (h : build_dependency_graph fetcher st₀ root max_depth filter_substring fuel = some st) :
    st.fetchLog.Nodup ∧ st.fetchLog.dedup.length = st.fetchLog.length := by
  have hE := (bfs_extends fetcher max_depth filter_substring fuel).1 _ _ _ _ h
  obtain ⟨-, -, ⟨lnew, hlog, -, hnd, -, -⟩⟩ := hE
  have hlog' : st.fetchLog = lnew := by simpa using hlog
  rw [hlog']
  exact ⟨hnd, by rw [List.dedup_eq_self.mpr hnd]⟩

theorem C2_witness :
    buildNew testFetcher "A" (-1) "" 30 = some ⟨
      [("A", ["B", "C", "D"]), ("B", ["D", "E"]),
       ("D", ["test_dep1", "test_dep2", "test_dep3"]),
       ("test_dep1", ["test_dep1", "test_dep2", "test_dep3"]),
       ("test_dep2", ["test_dep1", "test_dep2", "test_dep3"]),
       ("test_dep3", ["test_dep1", "test_dep2", "test_dep3"]),
       ("E", ["test_dep1", "test_dep2", "test_dep3"]),
       ("C", ["B", "F"]),
       ("F", ["test_dep1", "test_dep2", "test_dep3"])],
      ["F", "C", "E", "test_dep3", "test_dep2", "test_dep1", "D", "B", "A"],
      [],
      ["A", "B", "D", "test_dep1", "test_dep2", "test_dep3", "E", "C", "F"]⟩ ∧
    (["A", "B", "D", "test_dep1", "test_dep2", "test_dep3", "E", "C", "F"] : List Pkg).Nodup := by
  have hrun : buildNew testFetcher "A" (-1) "" 30 = some ⟨
      [("A", ["B", "C", "D"]), ("B", ["D", "E"]),
       ("D", ["test_dep1", "test_dep2", "test_dep3"]),
       ("test_dep1", ["test_dep1", "test_dep2", "test_dep3"]),
       ("test_dep2", ["test_dep1", "test_dep2", "test_dep3"]),
       ("test_dep3", ["test_dep1", "test_dep2", "test_dep3"]),
       ("E", ["test_dep1", "test_dep2", "test_dep3"]),
       ("C", ["B", "F"]),
       ("F", ["test_dep1", "test_dep2", "test_dep3"])],
      ["F", "C", "E", "test_dep3", "test_dep2", "test_dep1", "D", "B", "A"],
      [],
      ["A", "B", "D", "test_dep1", "test_dep2", "test_dep3", "E", "C", "F"]⟩ := by
    simp [buildNew, build_dependency_graph, initDependencyGraph, bfs_with_recursion,
          bfs_deps_loop, testFetcher, get_test_dependencies, test_dependencies, lookupA,
          filterDeps, keepDep, List.erase_cons_head]
  exact ⟨hrun, (C2_memoized_fetches testFetcher initDependencyGraph "A" (-1) "" 30 _ hrun).1⟩

/-- C3: a fetch failure is isolated to its node: the failing package
gets no graph entry, its node is popped so the final recursion stack is
empty again, the build still returns a graph, and every expanded package
whose fetch succeeded keeps its recorded (filtered) entry. -/
theorem C3_fetch_failure_isolated (fetcher : Fetcher) (root p : Pkg) (max_depth : Int)
    (filter_substring : String) (fuel : Nat) (st : BuildState)
    (hp : fetcher p = none)
    (h : buildNew fetcher root max_depth filter_substring fuel = some st) :
    lookupA st.graph p = none ∧ st.stack = [] ∧
    (∀ q deps, q ∈ st.fetchLog → fetcher q = some deps →
      lookupA st.graph q = some (filterDeps filter_substring deps)) := by
  have hE := (bfs_extends fetcher max_depth filter_substring fuel).1 _ _ _ _ h
  obtain ⟨hs, ⟨gnew, hg, hgok⟩, ⟨lnew, hlog, -, -, -, hkey⟩⟩ := hE
  have hg' : st.graph = gnew := by simpa using hg
  have hallok : ∀ e ∈ st.graph, entryOK fetcher filter_substring e := by
    rw [hg']; exact hgok
  have hlog' : st.fetchLog = lnew := by simpa using hlog
  refine ⟨lookupA_none_of_entryOK st.graph hallok p hp, by simpa using hs, ?_⟩
  intro q deps hql hfq
  exact lookupA_of_entryOK st.graph hallok q deps hfq (hkey q (hlog' ▸ hql) deps hfq)

theorem C3_witness :
    failBFetcher "B" = none ∧
    buildNew failBFetcher "A" (-1) "" 10 =
      some ⟨[("A", ["B", "C"]), ("C", [])], ["C", "B", "A"], [], ["A", "B", "C"]⟩ ∧
    lookupA [("A", ["B", "C"]), ("C", [])] "B" = none := by
  have hrun : buildNew failBFetcher "A" (-1) "" 10 =
      some ⟨[("A", ["B", "C"]), ("C", [])], ["C", "B", "A"], [], ["A", "B", "C"]⟩ := by
    simp [buildNew, build_dependency_graph, initDependencyGraph, bfs_with_recursion,
          bfs_deps_loop, failBFetcher, filterDeps, keepDep, List.erase_cons_head]
  refine ⟨rfl, hrun, ?_⟩
  exact (C3_fetch_failure_isolated failBFetcher "A" "B" (-1) "" 10 _ rfl hrun).1

/-- C5: with `max_depth = 0` and a fetcher giving the root "A" the
direct dependencies [B, C], the build records exactly the key "A" with
value [B, C]; neither B nor C becomes a key, and the fetch log shows
that only "A" was ever fetched. -/
theorem C5_depth_zero (fetcher : Fetcher) (h : fetcher "A" = some ["B", "C"]) :
    buildNew fetcher "A" 0 "" 5 = some ⟨[("A", ["B", "C"])], ["A"], [], ["A"]⟩ := by
  simp [buildNew, build_dependency_graph, initDependencyGraph, bfs_with_recursion, bfs_deps_loop,
        h, filterDeps, keepDep, List.erase_cons_head]

theorem C5_witness :
    rootABFetcher "A" = some ["B", "C"] ∧
    buildNew rootABFetcher "A" 0 "" 5 = some ⟨[("A", ["B", "C"])], ["A"], [], ["A"]⟩ :=
  ⟨rfl, C5_depth_zero rootABFetcher rfl⟩

/-- C7 counterexample: `build_dependency_graph` does NOT reset the
recursion stack.  On an instance whose recursion stack still holds "X",
building for root "X" hits the stale stack entry and produces an empty
graph with the stack untouched, although the same build on a fresh
instance expands "X" in full.  (`build_dependency_graph`, `graph.py`
lines 34-35, resets only `graph` and `visited`.) -/
theorem C7_counterexample :
    build_dependency_graph testFetcher ⟨[], [], ["X"], []⟩ "X" (-1) "" 30 =
      some ⟨[], [], ["X"], []⟩ ∧
    buildNew testFetcher "X" (-1) "" 30 =
      some ⟨[("X", ["test_dep1", "test_dep2", "test_dep3"]),
            ("test_dep1", ["test_dep1", "test_dep2", "test_dep3"]),
            ("test_dep2", ["test_dep1", "test_dep2", "test_dep3"]),
            ("test_dep3", ["test_dep1", "test_dep2", "test_dep3"])],
           ["test_dep3", "test_dep2", "test_dep1", "X"],
           [],
           ["X", "test_dep1", "test_dep2", "test_dep3"]⟩ := by
  constructor
  · simp [build_dependency_graph, bfs_with_recursion]
  · simp [buildNew, build_dependency_graph, initDependencyGraph, bfs_with_recursion,
          bfs_deps_loop, testFetcher, get_test_dependencies, test_dependencies, lookupA,
          filterDeps, keepDep, List.erase_cons_head]

/-- C7 amended: at the start of every `build_dependency_graph` call the
adjacency map and the visited set are reset to empty, while the
recursion stack is carried over from the instance unchanged; and every
completed build leaves the recursion stack exactly as it found it, so in
the normal lifecycle (a fresh instance with an empty stack) the stack is
empty at the start of each build. -/
theorem C7_amended_reset (fetcher : Fetcher) (st₀ : BuildState) (root : Pkg)
    (max_depth : Int) (filter_substring : String) (fuel : Nat) (st : BuildState)
    (h : build_dependency_graph fetcher st₀ root max_depth filter_substring fuel = some st) :
    build_dependency_graph fetcher st₀ root max_depth filter_substring fuel =
      bfs_with_recursion fetcher max_depth filter_substring fuel root 0
        ⟨[], [], st₀.stack, []⟩ ∧
    st.stack = st₀.stack := by
  refine ⟨rfl, ?_⟩
  have hE := (bfs_extends fetcher max_depth filter_substring fuel).1 _ _ _ _ h
  simpa using hE.1

theorem C7_witness :
    build_dependency_graph testFetcher ⟨[("old", ["x"])], ["old"], ["S"], ["old"]⟩
        "A" (-1) "" 30 =
      some ⟨[("A", ["B", "C", "D"]), ("B", ["D", "E"]),
             ("D", ["test_dep1", "test_dep2", "test_dep3"]),
             ("test_dep1", ["test_dep1", "test_dep2", "test_dep3"]),
             ("test_dep2", ["test_dep1", "test_dep2", "test_dep3"]),
             ("test_dep3", ["test_dep1", "test_dep2", "test_dep3"]),
             ("E", ["test_dep1", "test_dep2", "test_dep3"]),
             ("C", ["B", "F"]),
             ("F", ["test_dep1", "test_dep2", "test_dep3"])],
            ["F", "C", "E", "test_dep3", "test_dep2", "test_dep1", "D", "B", "A"],
            ["S"],
            ["A", "B", "D", "test_dep1", "test_dep2", "test_dep3", "E", "C", "F"]⟩ ∧
    (["S"] : List Pkg) = ["S"] := by
  have hrun : build_dependency_graph testFetcher ⟨[("old", ["x"])], ["old"], ["S"], ["old"]⟩
      "A" (-1) "" 30 =
      some ⟨[("A", ["B", "C", "D"]), ("B", ["D", "E"]),
             ("D", ["test_dep1", "test_dep2", "test_dep3"]),
             ("test_dep1", ["test_dep1", "test_dep2", "test_dep3"]),
             ("test_dep2", ["test_dep1", "test_dep2", "test_dep3"]),
             ("test_dep3", ["test_dep1", "test_dep2", "test_dep3"]),
             ("E", ["test_dep1", "test_dep2", "test_dep3"]),
             ("C", ["B", "F"]),
             ("F", ["test_dep1", "test_dep2", "test_dep3"])],
            ["F", "C", "E", "test_dep3", "test_dep2", "test_dep1", "D", "B", "A"],
            ["S"],
            ["A", "B", "D", "test_dep1", "test_dep2", "test_dep3", "E", "C", "F"]⟩ := by
    simp [build_dependency_graph, bfs_with_recursion, bfs_deps_loop, testFetcher,
          get_test_dependencies, test_dependencies, lookupA, filterDeps, keepDep,
          List.erase_cons_head]
  exact ⟨hrun, (C7_amended_reset testFetcher ⟨[("old", ["x"])], ["old"], ["S"], ["old"]⟩
    "A" (-1) "" 30 _ hrun).2⟩

/-- C9: the substring filter is never applied to the root package: for
any root whose name contains the non-empty filter substring, if the
depth bound permits depth 0 and the root's fetch succeeds, the root is
still fetched, expanded, and recorded as a graph key with its filtered
dependency list. -/
theorem C9_root_not_filtered (fetcher : Fetcher) (root : Pkg) (max_depth : Int)
    (filter_substring : String) (deps : List Pkg) (fuel : Nat) (st : BuildState)
    (_hsub : subOf filter_substring.toList root.toList = true)
    (_hne : filter_substring ≠ "")
    (hperm : max_depth = -1 ∨ 0 ≤ max_depth)
    (hfetch : fetcher root = some deps)
    (h : buildNew fetcher root max_depth filter_substring (fuel + 1) = some st) :
    root ∈ st.fetchLog ∧ root ∈ st.graph.map Prod.fst ∧
    lookupA st.graph root = some (filterDeps filter_substring deps) := by
  have hc1 : ¬(max_depth ≠ -1 ∧ (0 : Int) > max_depth) := by
    rcases hperm with hp | hp
    · simp [hp]
    · intro hc
      omega
  simp only [buildNew, build_dependency_graph, initDependencyGraph, bfs_with_recursion,
    hc1, if_false, List.not_mem_nil, hfetch, List.nil_append] at h
  split at h
  · cases h
  · rename_i st₃ hloop
    cases h
    have hE := (bfs_extends fetcher max_depth filter_substring fuel).2 _ _ _ _ hloop
    obtain ⟨-, ⟨gnew, hg, hgok⟩, ⟨lnew, hlog, -, -, -, -⟩⟩ := hE
    have hg' : st₃.graph = (root, filterDeps filter_substring deps) :: gnew := by
      simpa using hg
    have hlog' : st₃.fetchLog = root :: lnew := by simpa using hlog
    refine ⟨by simp [hlog'], by simp [hg'], by simp [hg', lookupA]⟩

theorem C9_witness :
    subOf "serde".toList "serde".toList = true ∧
    testFetcher "serde" = some ["serde_derive", "proc-macro2", "quote", "syn"] ∧
    buildNew testFetcher "serde" (-1) "serde" 30 =
      some ⟨[("serde", ["proc-macro2", "quote", "syn"]),
             ("proc-macro2", ["test_dep1", "test_dep2", "test_dep3"]),
             ("test_dep1", ["test_dep1", "test_dep2", "test_dep3"]),
             ("test_dep2", ["test_dep1", "test_dep2", "test_dep3"]),
             ("test_dep3", ["test_dep1", "test_dep2", "test_dep3"]),
             ("quote", ["test_dep1", "test_dep2", "test_dep3"]),
             ("syn", ["test_dep1", "test_dep2", "test_dep3"])],
            ["syn", "quote", "test_dep3", "test_dep2", "test_dep1", "proc-macro2", "serde"],
            [],
            ["serde", "proc-macro2", "test_dep1", "test_dep2", "test_dep3", "quote", "syn"]⟩ ∧
    "serde" ∈ (["serde", "proc-macro2", "test_dep1", "test_dep2", "test_dep3",
                "quote", "syn"] : List Pkg) := by
  have hrun : buildNew testFetcher "serde" (-1) "serde" 30 =
      some ⟨[("serde", ["proc-macro2", "quote", "syn"]),
             ("proc-macro2", ["test_dep1", "test_dep2", "test_dep3"]),
             ("test_dep1", ["test_dep1", "test_dep2", "test_dep3"]),
             ("test_dep2", ["test_dep1", "test_dep2", "test_dep3"]),
             ("test_dep3", ["test_dep1", "test_dep2", "test_dep3"]),
             ("quote", ["test_dep1", "test_dep2", "test_dep3"]),
             ("syn", ["test_dep1", "test_dep2", "test_dep3"])],
            ["syn", "quote", "test_dep3", "test_dep2", "test_dep1", "proc-macro2", "serde"],
            [],
            ["serde", "proc-macro2", "test_dep1", "test_dep2", "test_dep3", "quote", "syn"]⟩ := by
    simp [buildNew, build_dependency_graph, initDependencyGraph, bfs_with_recursion,
          bfs_deps_loop, testFetcher, get_test_dependencies, test_dependencies, lookupA,
          filterDeps, keepDep, subOf, startsList, List.erase_cons_head]
  refine ⟨by decide, rfl, hrun, ?_⟩
  exact (C9_root_not_filtered testFetcher "serde" (-1) "serde"
    ["serde_derive", "proc-macro2", "quote", "syn"] 29 _ (by decide) (by decide)
    (Or.inl rfl) rfl hrun).1

/-- C10: any `max_depth` strictly below -1 makes the depth check fail
already for the root at depth 0, so the build fetches nothing and
returns an empty graph; such values are rejected only by the
configuration validator. -/
theorem C10_negative_depth (fetcher : Fetcher) (root : Pkg) (filter_substring : String)
    (max_depth : Int) (fuel : Nat) (hmd : max_depth < -1) :
    buildNew fetcher root max_depth filter_substring (fuel + 1) = some initDependencyGraph ∧
    validate_max_depth max_depth =
      Except.error "max_depth должен быть -1 (без ограничений) или положительным числом" := by
  constructor
  · have h1 : max_depth ≠ -1 := by omega
    have h2 : (0 : Int) > max_depth := by omega
    simp [buildNew, build_dependency_graph, initDependencyGraph, bfs_with_recursion, h1, h2]
  · simp [validate_max_depth, hmd]

theorem C10_witness :
    (-2 : Int) < -1 ∧
    buildNew testFetcher "A" (-2) "" 10 = some initDependencyGraph ∧
    validate_max_depth (-2) =
      Except.error "max_depth должен быть -1 (без ограничений) или положительным числом" := by
  have h := C10_negative_depth testFetcher "A" "" (-2) 9 (by norm_num)
  exact ⟨by norm_num, h.1, h.2⟩

theorem chainFetcher_acyclic : AcyclicDeps chainFetcher "" := by
  refine ⟨fun p => if p = "A" then 1 else 0, ?_⟩
  rintro p q ⟨deps, hp, hq⟩
  by_cases hA : p = "A"
  · subst hA
    rw [show chainFetcher "A" = some ["B"] from rfl] at hp
    cases hp
    have hq' : q = "B" := by simpa [filterDeps, keepDep] using hq
    subst hq'
    decide
  · by_cases hB : p = "B"
    · subst hB
      rw [show chainFetcher "B" = some [] from rfl] at hp
      cases hp
      simp [filterDeps] at hq
    · simp [chainFetcher, hA, hB] at hp

/-- C1: with unlimited depth, a completed build from a fresh instance of
any fetcher with an acyclic dependency relation expands every package
reachable from the root exactly once; every expanded package whose fetch
succeeded has `graph[package]` equal to its fetched dependency list with
the names containing the non-empty filter substring removed, in the
original order (and the filter is the identity when the substring is
empty); and a removed name is never itself expanded (only the root may
carry the substring). -/
theorem C1_full_expansion (fetcher : Fetcher) (root : Pkg) (filter_substring : String)
    (fuel : Nat) (st : BuildState)
    (_hacyc : AcyclicDeps fetcher filter_substring)
    (h : buildNew fetcher root (-1) filter_substring fuel = some st) :
    (∀ q, Reach fetcher filter_substring root q →
      q ∈ st.fetchLog ∧ st.fetchLog.count q = 1) ∧
    (∀ q deps, q ∈ st.fetchLog → fetcher q = some deps →
      lookupA st.graph q = some (filterDeps filter_substring deps)) ∧
    (filter_substring ≠ "" → ∀ q ∈ st.fetchLog,
      q = root ∨ subOf filter_substring.toList q.toList = false) ∧
    (∀ deps, filterDeps "" deps = deps) := by
  have h' : bfs_with_recursion fetcher (-1) filter_substring fuel root 0
      ⟨[], [], [], []⟩ = some st := h
  have hE := (bfs_extends fetcher (-1) filter_substring fuel).1 _ _ _ _ h'
  obtain ⟨hs, ⟨gnew, hg, hgok⟩, ⟨lnew, hlog, hv, hnd, -, hkey⟩⟩ := hE
  have hs' : st.stack = [] := by simpa using hs
  have hg' : st.graph = gnew := by simpa using hg
  have hlog' : st.fetchLog = lnew := by simpa using hlog
  have hv' : st.visited = st.fetchLog.reverse := by
    rw [hlog']
    simpa using hv
  obtain ⟨-, hcl, hroot⟩ := (bfs_closed fetcher filter_substring fuel).1 _ _ _ _ h'
    (by intro x hx; exact hx) (by intro p hp; simp at hp)
  refine ⟨?_, ?_, ?_, ?_⟩
  · intro q hq
    have hqv : q ∈ st.visited := reach_visited hcl hs' hroot q hq
    have hql : q ∈ st.fetchLog := by
      rw [hv'] at hqv
      exact List.mem_reverse.1 hqv
    refine ⟨hql, ?_⟩
    rw [hlog'] at hql ⊢
    exact List.count_eq_one_of_mem hnd hql
  · intro q deps hql hfq
    have hallok : ∀ e ∈ st.graph, entryOK fetcher filter_substring e := by
      rw [hg']
      exact hgok
    exact lookupA_of_entryOK st.graph hallok q deps hfq (hkey q (hlog' ▸ hql) deps hfq)
  · intro hne q hql
    rcases (bfs_log_origin fetcher (-1) filter_substring fuel).1 _ _ _ _ h' q hql
      with hc | hc | hc
    · simp at hc
    · exact Or.inl hc
    · refine Or.inr ?_
      simp only [keepDep, if_neg hne] at hc
      simpa using hc
  · intro deps
    simp [filterDeps, keepDep]

theorem C1_witness :
    AcyclicDeps chainFetcher "" ∧
    buildNew chainFetcher "A" (-1) "" 5 =
      some ⟨[("A", ["B"]), ("B", [])], ["B", "A"], [], ["A", "B"]⟩ ∧
    (["A", "B"] : List Pkg).count "B" = 1 := by
  have hrun : buildNew chainFetcher "A" (-1) "" 5 =
      some ⟨[("A", ["B"]), ("B", [])], ["B", "A"], [], ["A", "B"]⟩ := by
    simp [buildNew, build_dependency_graph, initDependencyGraph, bfs_with_recursion,
          bfs_deps_loop, chainFetcher, filterDeps, keepDep, List.erase_cons_head]
  have hreach : Reach chainFetcher "" "A" "B" :=
    Reach.step "A" "B" ["B"] Reach.refl rfl (by simp [filterDeps, keepDep])
  refine ⟨chainFetcher_acyclic, hrun, ?_⟩
  have hone := (C1_full_expansion chainFetcher "A" "" 5 _ chainFetcher_acyclic hrun).1 "B" hreach
  exact hone.2

/-- C4: on the fixed test graph A:[B,C], B:[D,E], C:[B,F], D:[G],
E:[D,H], F:[E,I], G:[B], H:[], I:[F], `detect_cycles` reports a cycle
with node set {B, D, G} and a cycle with node set {F, I}. -/
theorem C4_testgraph_cycles :
    ∃ res, detect_cycles build_test_graph 50 = some res ∧
      (∃ c ∈ res, c.toFinset = ({"B", "D", "G"} : Finset Pkg)) ∧
      (∃ c ∈ res, c.toFinset = ({"F", "I"} : Finset Pkg)) := by
  refine ⟨[["B", "D", "G"], ["F", "I"]], ?_, ⟨["B", "D", "G"], by simp, by decide⟩,
    ⟨["F", "I"], by simp, by decide⟩⟩
  simp [detect_cycles, dfs_all, dfs, dfs_nbrs_loop, nbrs, lookupA, build_test_graph,
        List.indexOf, List.findIdx, List.findIdx.go]

/-- C6: every cycle returned by `detect_cycles` is a closed walk of the
graph — consecutive members are edges and the last member has an edge
back to the first, which is exactly what the emitted suffix of the DFS
path satisfies at the moment of detection — and the returned list
contains no two cycles that are equal as exact sequences. -/
theorem C6_cycle_soundness (graph : List (Pkg × List Pkg)) (fuel : Nat)
    (res : List (List Pkg)) (h : detect_cycles graph fuel = some res) :
    (∀ c ∈ res, IsCycleOf graph c) ∧ res.Nodup := by
  simp only [detect_cycles] at h
  rcases Option.map_eq_some'.1 h with ⟨cst, hall, hres⟩
  subst hres
  exact dfs_all_cycinv graph fuel _ _ _ hall ⟨by simp, List.nodup_nil⟩

theorem C6_witness :
    IsCycleOf build_test_graph ["B", "D", "G"] ∧
    ([["B", "D", "G"], ["F", "I"]] : List (List Pkg)).Nodup := by
  have hdet : detect_cycles build_test_graph 50 = some [["B", "D", "G"], ["F", "I"]] := by
    simp [detect_cycles, dfs_all, dfs, dfs_nbrs_loop, nbrs, lookupA, build_test_graph,
          List.indexOf, List.findIdx, List.findIdx.go]
  obtain ⟨hall, hnd⟩ := C6_cycle_soundness build_test_graph 50 _ hdet
  exact ⟨hall _ (by simp), hnd⟩

/-- C8: in test mode with root "serde", unlimited depth and empty
filter, the graph has exactly one key "serde", mapped to
[serde_derive, proc-macro2, quote, syn] in order, and each of those
four unknown names is a key mapped to the generic fallback list
[test_dep1, test_dep2, test_dep3]. -/
theorem C8_serde_end_to_end :
    ∃ st, buildNew testFetcher "serde" (-1) "" 30 = some st ∧
      (st.graph.map Prod.fst).count "serde" = 1 ∧
      lookupA st.graph "serde" = some ["serde_derive", "proc-macro2", "quote", "syn"] ∧
      lookupA st.graph "serde_derive" = some ["test_dep1", "test_dep2", "test_dep3"] ∧
      lookupA st.graph "proc-macro2" = some ["test_dep1", "test_dep2", "test_dep3"] ∧
      lookupA st.graph "quote" = some ["test_dep1", "test_dep2", "test_dep3"] ∧
      lookupA st.graph "syn" = some ["test_dep1", "test_dep2", "test_dep3"] := by
  refine ⟨⟨[("serde", ["serde_derive", "proc-macro2", "quote", "syn"]),
            ("serde_derive", ["test_dep1", "test_dep2", "test_dep3"]),
            ("test_dep1", ["test_dep1", "test_dep2", "test_dep3"]),
            ("test_dep2", ["test_dep1", "test_dep2", "test_dep3"]),
            ("test_dep3", ["test_dep1", "test_dep2", "test_dep3"]),
            ("proc-macro2", ["test_dep1", "test_dep2", "test_dep3"]),
            ("quote", ["test_dep1", "test_dep2", "test_dep3"]),
            ("syn", ["test_dep1", "test_dep2", "test_dep3"])],
           ["syn", "quote", "proc-macro2", "test_dep3", "test_dep2", "test_dep1",
            "serde_derive", "serde"],
           [],
           ["serde", "serde_derive", "test_dep1", "test_dep2", "test_dep3", "proc-macro2",
            "quote", "syn"]⟩, ?_, by decide, by decide, by decide, by decide, by decide,
    by decide⟩
  simp [buildNew, build_dependency_graph, initDependencyGraph, bfs_with_recursion,
        bfs_deps_loop, testFetcher, get_test_dependencies, test_dependencies, lookupA,
        filterDeps, keepDep, List.erase_cons_head]
